import Mathlib

/-!
Verification of the tiny-json-path core (getTinyJsonPath / setTinyJsonPath,
src/tests/get-set.test.js lines 249-478) against its natural-language
specification.

The JavaScript source is shallowly embedded over a cycle-free JSON value
universe.  Modelling conventions, each taken from the source:

* JS values are the inductive type JSValue.  JS objects are association
  lists of string keys; JS arrays carry their element list plus an
  association list of non-index string-keyed properties, because the
  setter writes string keys onto arrays (expando properties) and the
  getter reads them back.  Array holes read back as undefined in the
  source, so holes are represented by the undef element.  The fn
  constructor stands for native function values, which enter only
  through prototype-inherited property reads.
* Property reads see the prototype chain: an own-absent key that names a
  standard Object.prototype property (on any non-nullish receiver) or a
  standard Array.prototype property (on arrays) reads as a function
  value fn rather than undefined; these keys are the fixed ES2023 string
  key sets below.  The accessor key __proto__ of Object.prototype is in
  the set and reads as the opaque fn (its true value, the Object.prototype
  object, and prototype mutation through it are out of scope; claim
  theorems about values read or written along a path exclude that key by
  hypothesis).  The own properties of function values, the exotic
  numeric-string keys of arrays, and the character-index keys of strings
  are not modelled (no claim depends on them); writes to function values
  are modelled as failing, which no claim theorem reaches (their
  hypotheses require container receivers).
* The array length property is exotic and is modelled: reading length on
  an array yields the element count; assigning it resizes the array when
  the assigned value coerces to a valid length (an integral number, a
  pure-digit string, a boolean or null, at most 2^32 - 1) and throws a
  RangeError otherwise.  String coercions beyond pure digit runs
  (whitespace, signs, hex, exponents) and object-to-primitive coercion
  are modelled as the throwing case; no claim theorem depends on them.
* The loose comparison x == null of the source is isNullish, true
  exactly for null and undefined.  typeof x === an object test is
  isObjLike (objects and arrays; typeof of a function value is
  'function', so fn is not object-like; the null case is always
  separately guarded in the source).
* The module is ES-module code, hence strict mode: a property write on a
  primitive throws TypeError, and any property access on null/undefined
  throws.  Fallible operations therefore return Option: none models a
  thrown exception, some r a normal return.  The setter returns
  some (b, root2) where b is its boolean result and root2 the final
  state of the (in JS, in-place mutated) root argument.
* Machine integers: array indices are parsed from pure digit runs, so
  they are naturally Nat.  Array lengths are capped at 2^32 - 1, so the
  final-segment growth cur.length = idx + 1 of the source throws a
  RangeError when idx >= cur.length and idx + 1 exceeds that cap; this
  is modelled.  Quantified theorems about indices stay below 2^32 - 1,
  where parseInt on the digit run is exact, so the float rounding of
  parseInt on enormous digit runs is idealized away harmlessly.
* The scanner loops of the getter and the setter are character-identical
  in the source; both are embedded through the single step function
  scanStep, and the getter keeps its interleaved scan-and-traverse shape
  (getLoop) exactly as in the source.
-/

/-- JS whitespace per the regular expression \s used by the source
(eatWs): space, tab, LF, VT, FF, CR, NBSP, and the Unicode space
characters, line/paragraph separators and BOM. -/
def isJsWs (c : Char) : Bool :=
  c.toNat == 32 || c.toNat == 9 || c.toNat == 10 || c.toNat == 11 ||
  c.toNat == 12 || c.toNat == 13 || c.toNat == 0xa0 || c.toNat == 0x1680 ||
  (0x2000 ≤ c.toNat && c.toNat ≤ 0x200a) || c.toNat == 0x2028 ||
  c.toNat == 0x2029 || c.toNat == 0x202f || c.toNat == 0x205f ||
  c.toNat == 0x3000 || c.toNat == 0xfeff

/-- Characters allowed in a dot-segment bareword, per the source regular
expression [A-Za-z0-9_\-]. -/
def isIdentChar (c : Char) : Bool :=
  (65 ≤ c.toNat && c.toNat ≤ 90) || (97 ≤ c.toNat && c.toNat ≤ 122) ||
  (48 ≤ c.toNat && c.toNat ≤ 57) || c.toNat == 95 || c.toNat == 45

/-- Decimal digit characters, per the source regular expression [0-9]. -/
def isDigitChar (c : Char) : Bool :=
  48 ≤ c.toNat && c.toNat ≤ 57

/-- The double-quote character. -/
def dqChar : Char := Char.ofNat 34

/-- The single-quote character. -/
def sqChar : Char := Char.ofNat 39

/-- Quote characters accepted by the bracket-segment scanner. -/
def isQuote (c : Char) : Bool := c == dqChar || c == sqChar

/-- Value of parseInt on a nonempty run of decimal digits. -/
def digitsToNat (ds : List Char) : Nat :=
  ds.foldl (fun a c => 10 * a + (c.toNat - 48)) 0

/-- A parsed path segment: keyed access or indexed access. -/
inductive Seg where
  | key (k : String)
  | index (n : Nat)
deriving DecidableEq

/-- Result of one iteration of the scanning loop shared by the getter and
the setter: the loop ends (break, or cursor at end), with the unconsumed
trailing characters; the scan hard-fails (the source returns
undefined/false from inside the loop); or one segment is produced and the
cursor advances. -/
inductive StepRes where
  | done (trailing : List Char)
  | fail
  | seg (s : Seg) (rest : List Char)

/-- The bracket-segment digit alternative of the scanner: a run of
decimal digits, whitespace, then a closing bracket; parseInt of an empty
run is NaN and fails the isFinite test in the source. -/
def scanDigits (r2 : List Char) : StepRes :=
  let ds := r2.takeWhile isDigitChar
  match (r2.dropWhile isDigitChar).dropWhile isJsWs with
  | ']' :: r5 => if ds.isEmpty then .fail else .seg (.index (digitsToNat ds)) r5
  | _ => .fail

/-- One iteration of the scanning loop of the source (shared, character
for character, by getTinyJsonPath and setTinyJsonPath): skip whitespace,
then a dot segment, a bracket segment (quoted key or digits), or
terminate on the path end or any other character. -/
def scanStep (rest : List Char) : StepRes :=
  match rest.dropWhile isJsWs with
  | [] => .done []
  | c :: r1 =>
    if c = '.' then
      let r2 := r1.dropWhile isJsWs
      let k := r2.takeWhile isIdentChar
      if k.isEmpty then .fail else .seg (.key ⟨k⟩) (r2.dropWhile isIdentChar)
    else if c = '[' then
      let r2 := r1.dropWhile isJsWs
      match r2 with
      | q :: r3 =>
        if isQuote q then
          let s := r3.takeWhile (fun a => !(a == q))
          match r3.dropWhile (fun a => !(a == q)) with
          | [] => .fail
          | _ :: r4 =>
            match r4.dropWhile isJsWs with
            | ']' :: r5 => .seg (.key ⟨s⟩) r5
            | _ => .fail
        else scanDigits r2
      | [] => scanDigits r2
    else .done (c :: r1)

/-- The JSON-safe JS value universe of the source (no cycles by
construction).  Arrays carry element list and string-keyed expando
properties; fn stands for a native function value reached through a
prototype-inherited property read; see the module comment for the
modelled property set. -/
inductive JSValue where
  | null
  | undef
  | bool (b : Bool)
  | num (n : Int)
  | str (s : String)
  | obj (props : List (String × JSValue))
  | arr (elems : List JSValue) (props : List (String × JSValue))
  | fn

/-- The loose equality x == null of the source: null or undefined. -/
def isNullish : JSValue → Bool
  | .null => true
  | JSValue.undef => true
  | _ => false

/-- The test (x != null and typeof x === an object) as used by the
source; arrays are typeof object in JS, functions are typeof
function. -/
def isObjLike : JSValue → Bool
  | .obj _ => true
  | .arr _ _ => true
  | _ => false

/-- Own-property read from an association list; none means the key is
absent (as opposed to present with value undefined, which shadows the
prototype chain). -/
def findAssoc : List (String × JSValue) → String → Option JSValue
  | [], _ => none
  | (a, b) :: t, k => if a = k then some b else findAssoc t k

/-- Property write to an association list: overwrite the first occurrence
or append, as JS object property assignment. -/
def putAssoc : List (String × JSValue) → String → JSValue → List (String × JSValue)
  | [], k, v => [(k, v)]
  | (a, b) :: t, k, v => if a = k then (k, v) :: t else (a, b) :: putAssoc t k v

/-- JS array element write cur[idx] = v: set in place when idx is within
the current length, otherwise extend, filling the skipped slots with
holes (which read back as undefined). -/
def arrSet : List JSValue → Nat → JSValue → List JSValue
  | [], 0, v => [v]
  | [], n + 1, v => JSValue.undef :: arrSet [] n v
  | _ :: t, 0, v => v :: t
  | h :: t, n + 1, v => h :: arrSet t n v

/-- The string keys of the standard own properties of Object.prototype
(ES2023).  All are function-valued except the accessor key, which is
modelled as the opaque fn as well (see the module comment). -/
def objectProtoKey (k : String) : Bool :=
  k == "constructor" || k == "hasOwnProperty" || k == "isPrototypeOf" ||
  k == "propertyIsEnumerable" || k == "toLocaleString" || k == "toString" ||
  k == "valueOf" || k == "__defineGetter__" || k == "__defineSetter__" ||
  k == "__lookupGetter__" || k == "__lookupSetter__" || k == "__proto__"

/-- The string keys of the standard own properties of Array.prototype
(ES2023), all function-valued; its own length property always reads 0
but is shadowed on every array instance by the instance's own exotic
length, so it needs no entry here. -/
def arrayProtoKey (k : String) : Bool :=
  k == "at" || k == "concat" || k == "constructor" || k == "copyWithin" ||
  k == "entries" || k == "every" || k == "fill" || k == "filter" ||
  k == "find" || k == "findIndex" || k == "findLast" || k == "findLastIndex" ||
  k == "flat" || k == "flatMap" || k == "forEach" || k == "includes" ||
  k == "indexOf" || k == "join" || k == "keys" || k == "lastIndexOf" ||
  k == "map" || k == "pop" || k == "push" || k == "reduce" ||
  k == "reduceRight" || k == "reverse" || k == "shift" || k == "slice" ||
  k == "some" || k == "sort" || k == "splice" || k == "toLocaleString" ||
  k == "toReversed" || k == "toSorted" || k == "toSpliced" ||
  k == "toString" || k == "unshift" || k == "values" || k == "with"

/-- Maximum JS array length, 2^32 - 1: a length must round-trip through
ToUint32. -/
def maxArrayLength : Nat := 4294967295

/-- Resizing an array to a new valid length: truncate, or grow with
holes. -/
def arrResize (e : List JSValue) (n : Nat) : List JSValue :=
  if n ≤ e.length then e.take n else e ++ List.replicate (n - e.length) JSValue.undef

/-- The exotic assignment arr.length = v of the source (ArraySetLength):
the assigned value must coerce to an integer that survives ToUint32
(at most 2^32 - 1), else RangeError (none).  Modelled coercions:
integral numbers, pure-digit strings, booleans and null; everything else
is modelled as the RangeError case (see the module comment). -/
def lengthAssign (e : List JSValue) : JSValue → Option (List JSValue)
  | .num n => if 0 ≤ n ∧ n ≤ (maxArrayLength : Int) then some (arrResize e n.toNat) else none
  | .str s =>
    if s.data ≠ [] ∧ s.data.all isDigitChar ∧ digitsToNat s.data ≤ maxArrayLength then
      some (arrResize e (digitsToNat s.data))
    else none
  | .bool b => some (arrResize e (if b then 1 else 0))
  | .null => some (arrResize e 0)
  | _ => none

/-- The property read cur[k] of the source; none models the TypeError
thrown by a read on null/undefined.  Own properties (array elements
excepted: the walk reads those by index, not through this function)
shadow the prototype; an own-absent key falls through to the modelled
prototype-inherited function properties, and otherwise reads as
undefined.  On arrays the exotic length reads the element count; on
strings it reads the character count. -/
def jsGetK : JSValue → String → Option JSValue
  | .null, _ => none
  | JSValue.undef, _ => none
  | .bool _, k => some (if objectProtoKey k then .fn else JSValue.undef)
  | .num _, k => some (if objectProtoKey k then .fn else JSValue.undef)
  | .str s, k =>
    some (if k = "length" then .num s.length
      else if objectProtoKey k then .fn else JSValue.undef)
  | .fn, k => some (if objectProtoKey k then .fn else JSValue.undef)
  | .obj m, k =>
    some (match findAssoc m k with
      | some x => x
      | none => if objectProtoKey k then .fn else JSValue.undef)
  | .arr e p, k =>
    some (if k = "length" then .num e.length
      else match findAssoc p k with
        | some x => x
        | none => if arrayProtoKey k || objectProtoKey k then .fn else JSValue.undef)

/-- The property write cur[k] = v of the source; none models the strict
mode TypeError thrown by a write on a primitive or on null/undefined
(writes on function values are modelled as failing too; no claim
theorem reaches them).  String-keyed writes on arrays create expando
properties, except the exotic length, which resizes or throws
RangeError. -/
def jsPutK : JSValue → String → JSValue → Option JSValue
  | .obj m, k, v => some (.obj (putAssoc m k v))
  | .arr e p, k, v =>
    if k = "length" then (lengthAssign e v).map (fun e2 => .arr e2 p)
    else some (.arr e (putAssoc p k v))
  | _, _, _ => none

/-- Container created by the setter for an absent slot, by one-token
lookahead on the segment that will address it: an array if that segment
is an index segment, otherwise a plain object. -/
def freshFor : Seg → JSValue
  | .index _ => .arr [] []
  | .key _ => .obj []

/-- Phases 2 and 3 of setTinyJsonPath: walk/create for all but the last
segment, then assign the last segment.  The in-place mutation of the
source is rendered by rebuilding the spine: each step descends into the
slot it addressed and writes the recursively produced subtree back into
that slot.  The empty-segment case is unreachable (the caller rejects an
empty segment list) and returns the failure sentinel.  A negative index
cannot occur since indices come from pure digit runs, so the idx < 0
guard of the source is vacuous here.  The final-segment growth
cur.length = idx + 1 of the source throws RangeError (none) when it
fires with idx + 1 above the maximum array length, that is when
idx >= cur.length and idx >= 2^32 - 1. -/
def setWalk (cur : JSValue) (v : JSValue) : List Seg → Option (Bool × JSValue)
  | [] => some (false, cur)
  | [last] =>
    match last with
    | .key k =>
      if isObjLike cur then (jsPutK cur k v).map (fun c => (true, c))
      else some (false, cur)
    | .index n =>
      match cur with
      | .arr e p =>
        if e.length ≤ n ∧ maxArrayLength ≤ n then none
        else some (true, .arr (arrSet e n v) p)
      | _ => some (false, cur)
  | seg :: next :: rest =>
    match seg with
    | .key k =>
      match jsGetK cur k with
      | none => none
      | some slot =>
        if isNullish slot then
          match setWalk (freshFor next) v (next :: rest) with
          | none => none
          | some (b, child2) => (jsPutK cur k child2).map (fun c => (b, c))
        else if isObjLike slot then
          match setWalk slot v (next :: rest) with
          | none => none
          | some (b, slot2) => (jsPutK cur k slot2).map (fun c => (b, c))
        else some (false, cur)
    | .index n =>
      match cur with
      | .arr e p =>
        let slot := e.getD n JSValue.undef
        if isNullish slot then
          match setWalk (freshFor next) v (next :: rest) with
          | none => none
          | some (b, child2) => some (b, .arr (arrSet e n child2) p)
        else if isObjLike slot then
          match setWalk slot v (next :: rest) with
          | none => none
          | some (b, slot2) => some (b, .arr (arrSet e n slot2) p)
        else some (false, .arr e p)
      | _ => some (false, cur)

/-- Phase 1 of setTinyJsonPath: run the scanner over the whole remaining
path, collecting segments, with the unconsumed trailing characters; none
is a scan failure (a return false inside the loop of the source).  The
fuel argument only drives the recursion; every produced segment consumes
at least one character, so path length + 1 fuel always suffices. -/
def tokenizeAux : Nat → List Char → Option (List Seg × List Char)
  | 0, _ => none
  | fuel + 1, rest =>
    match scanStep rest with
    | .done t => some ([], t)
    | .fail => none
    | .seg s r2 => (tokenizeAux fuel r2).map (fun p => (s :: p.1, p.2))

/-- Full tokenization of a path body (the characters after the root
marker). -/
def tokenizeFrom (rest : List Char) : Option (List Seg × List Char) :=
  tokenizeAux (rest.length + 1) rest

/-- The interleaved scan-and-traverse loop of getTinyJsonPath, kept in
the shape of the source: scan one segment, then for a key segment return
undefined when the current value is nullish and read the property
otherwise, and for an index segment return undefined when the current
value is not an array and read the element otherwise.  none models a
thrown exception (none ever occurs: every read is guarded, which is
claim C10).  Fuel as in tokenizeAux. -/
def getLoopAux : Nat → JSValue → List Char → Option JSValue
  | 0, _, _ => some JSValue.undef
  | fuel + 1, cur, rest =>
    match scanStep rest with
    | .done _ => some cur
    | .fail => some JSValue.undef
    | .seg s r2 =>
      match s with
      | .key k =>
        if isNullish cur then some JSValue.undef
        else
          match jsGetK cur k with
          | none => none
          | some c => getLoopAux fuel c r2
      | .index n =>
        match cur with
        | .arr e _ => getLoopAux fuel (e.getD n JSValue.undef) r2
        | _ => some JSValue.undef

/-- The loop of getTinyJsonPath starting just past the root marker. -/
def getLoop (cur : JSValue) (rest : List Char) : Option JSValue :=
  getLoopAux (rest.length + 1) cur rest

/-- Segment-level traversal of the getter (the traversal actions of
getLoop, separated from scanning); proven equal to the interleaved loop
by getLoop_decomp below. -/
def getWalk (cur : JSValue) : List Seg → Option JSValue
  | [] => some cur
  | .key k :: rest =>
    if isNullish cur then some JSValue.undef
    else
      match jsGetK cur k with
      | none => none
      | some c => getWalk c rest
  | .index n :: rest =>
    match cur with
    | .arr e _ => getWalk (e.getD n JSValue.undef) rest
    | _ => some JSValue.undef

/-- Body of getTinyJsonPath on the character list of the path: undefined
unless the path is nonempty and starts with the root marker, then the
interleaved scan-and-traverse loop.  none models a thrown exception. -/
def getTinyJsonPathData (root : JSValue) : List Char → Option JSValue
  | [] => some JSValue.undef
  | c :: rest => if c = '$' then getLoop root rest else some JSValue.undef

/-- getTinyJsonPath(obj, path) of the source. -/
def getTinyJsonPath (root : JSValue) (path : String) : Option JSValue :=
  getTinyJsonPathData root path.data

/-- Body of setTinyJsonPath on the character list of the path: false
unless the path is nonempty and starts with the root marker; tokenize the
whole remainder (phase 1), fail on an empty segment list, then walk and
create and assign (phases 2 and 3).  Returns some (result, final root
state); none models a thrown exception. -/
def setTinyJsonPathData (root v : JSValue) : List Char → Option (Bool × JSValue)
  | [] => some (false, root)
  | c :: rest =>
    if c = '$' then
      match tokenizeFrom rest with
      | none => some (false, root)
      | some (segs, _) =>
        if segs.isEmpty then some (false, root) else setWalk root v segs
    else some (false, root)

/-- setTinyJsonPath(obj, path, value) of the source. -/
def setTinyJsonPath (root : JSValue) (path : String) (v : JSValue) :
    Option (Bool × JSValue) :=
  setTinyJsonPathData root v path.data

/-! ## Renderings of segment sequences: the grammar of §4.1 with every
whitespace slot explicit.  A segment can be written as a dot bareword, a
bracketed quoted key, or a bracketed index; whitespace is permitted
before the segment, after the dot, after the opening bracket, and before
the closing bracket. -/

inductive SegR where
  | dot (ws0 ws1 : List Char) (k : List Char)
  | brq (ws0 ws1 ws2 : List Char) (q : Char) (k : List Char)
  | bri (ws0 ws1 ws2 : List Char) (ds : List Char)

/-- The characters this rendering choice writes into the path. -/
def SegR.render : SegR → List Char
  | .dot ws0 ws1 k => ws0 ++ '.' :: (ws1 ++ k)
  | .brq ws0 ws1 ws2 q k => ws0 ++ '[' :: (ws1 ++ q :: (k ++ q :: (ws2 ++ [']'])))
  | .bri ws0 ws1 ws2 ds => ws0 ++ '[' :: (ws1 ++ (ds ++ (ws2 ++ [']'])))

/-- The segment this rendering denotes. -/
def SegR.seg : SegR → Seg
  | .dot _ _ k => .key ⟨k⟩
  | .brq _ _ _ _ k => .key ⟨k⟩
  | .bri _ _ _ ds => .index (digitsToNat ds)

/-- Well-formedness of one rendering choice: whitespace slots hold only
whitespace, a dot bareword is a nonempty run of identifier characters, a
quoted key uses a quote character that does not occur in the key, an
index is a nonempty digit run. -/
def SegR.validB : SegR → Bool
  | .dot ws0 ws1 k =>
    ws0.all isJsWs && ws1.all isJsWs && !k.isEmpty && k.all isIdentChar
  | .brq ws0 ws1 ws2 q k =>
    ws0.all isJsWs && ws1.all isJsWs && ws2.all isJsWs && isQuote q &&
      k.all (fun a => !(a == q))
  | .bri ws0 ws1 ws2 ds =>
    ws0.all isJsWs && ws1.all isJsWs && ws2.all isJsWs && !ds.isEmpty &&
      ds.all isDigitChar

def SegR.isDot : SegR → Bool
  | .dot _ _ _ => true
  | _ => false

def renderSegs : List SegR → List Char
  | [] => []
  | sr :: rs => sr.render ++ renderSegs rs

/-- True when the list does not start with an identifier character (so a
preceding dot bareword cannot absorb it). -/
def headNotIdent (l : List Char) : Bool :=
  match l with
  | [] => true
  | c :: _ => !isIdentChar c

/-- Well-formedness of a rendering of a whole segment sequence followed
by the trailing characters: each choice is valid, and after every dot
bareword the rendering continues with a non-identifier character. -/
def rendersOkB : List SegR → List Char → Bool
  | [], _ => true
  | sr :: rs, tail =>
    sr.validB && (!sr.isDot || headNotIdent (renderSegs rs ++ tail)) &&
      rendersOkB rs tail

/-- A path assembled from the root marker, a rendering of a segment
sequence, and trailing whitespace. -/
def pathOf (rs : List SegR) (wsEnd : List Char) : String :=
  ⟨'$' :: (renderSegs rs ++ wsEnd)⟩

/-- Segments whose assignment step cannot throw inside a container:
index segments below the maximum array length (so the final-segment
growth never exceeds it) and key segments other than the exotic length
(whose assignment on an array can throw RangeError). -/
def Seg.benign : Seg → Bool
  | .key k => !(k == "length")
  | .index n => decide (n < maxArrayLength)

/-- Key segments that address only plain data properties: not the exotic
array length (whose write does not store the assigned value) and not the
prototype accessor key.  Index segments are always plain. -/
def Seg.plainKey : Seg → Bool
  | .key k => !(k == "length") && !(k == "__proto__")
  | .index _ => true

/-- Quote escaping as a path author would write it: every occurrence of
the quote character q inside the intended key is preceded by a
backslash.  The scanner of the source gives the backslash no special
meaning. -/
def escQ (q : Char) : List Char → List Char
  | [] => []
  | c :: t => if c = q then '\\' :: q :: escQ q t else c :: escQ q t


example : getTinyJsonPath (.obj [("a", .obj [("b", .num 42)])]) "$.a.b" =
    some (.num 42) := rfl

example : getTinyJsonPath (.arr [.obj [("x", .str "ok")], .obj [("x", .str "yes")]] [])
    "$[1].x" = some (.str "yes") := rfl

example : getTinyJsonPath (.obj [("a", .num 1)]) "a.b" = some JSValue.undef := rfl

example : getTinyJsonPath (.obj [("users", .arr [.obj [("name", .str "A")], .obj [("name", .str "B")]] [])])
    "$  .  users  [ 1 ]  .  name  " = some (.str "B") := rfl

example : setTinyJsonPath (.obj []) "$.a.b.c" (.num 42) =
    some (true, .obj [("a", .obj [("b", .obj [("c", .num 42)])])]) := rfl

example : setTinyJsonPath (.obj []) "$.a[0].b" (.str "ok") =
    some (true, .obj [("a", .arr [.obj [("b", .str "ok")]] [])]) := rfl

example : setTinyJsonPath (.obj [("a", .arr [] [])]) "$.a[3]" (.num 9) =
    some (true, .obj [("a", .arr [JSValue.undef, JSValue.undef, JSValue.undef, .num 9] [])]) := rfl

example : setTinyJsonPath (.obj [("a", .num 1)]) "$.a[0]" (.str "x") =
    some (false, .obj [("a", .num 1)]) := rfl

example : setTinyJsonPath (.obj []) "$." (.num 1) = some (false, .obj []) := rfl

example : setTinyJsonPath (.obj []) "$[abc]" (.num 1) = some (false, .obj []) := rfl

/-! ## Basic list facts used by the scanner proofs -/

theorem length_dropWhile_le (p : Char → Bool) (l : List Char) :
    (l.dropWhile p).length ≤ l.length := by
  induction l with
  | nil => simp [List.dropWhile]
  | cons h t ih =>
    by_cases hp : p h
    · simpa [List.dropWhile, hp] using Nat.le_succ_of_le ih
    · simp [List.dropWhile, hp]

theorem dropWhile_all_append (p : Char → Bool) (l r : List Char)
    (h : ∀ c ∈ l, p c = true) : (l ++ r).dropWhile p = r.dropWhile p := by
  induction l with
  | nil => simp
  | cons a t ih =>
    have ha : p a = true := h a (by simp)
    simp only [List.cons_append, List.dropWhile_cons_of_pos ha]
    exact ih (fun c hc => h c (by simp [hc]))

theorem dropWhile_all_nil (p : Char → Bool) (l : List Char)
    (h : ∀ c ∈ l, p c = true) : l.dropWhile p = [] := by
  have := dropWhile_all_append p l [] h
  simpa using this

theorem takeWhile_all_append (p : Char → Bool) (l r : List Char)
    (h : ∀ c ∈ l, p c = true)
    (hr : ∀ c, r.head? = some c → p c = false) :
    (l ++ r).takeWhile p = l ∧ (l ++ r).dropWhile p = r := by
  induction l with
  | nil =>
    cases r with
    | nil => simp [List.takeWhile, List.dropWhile]
    | cons a t =>
      have := hr a rfl
      simp [List.takeWhile_cons, List.dropWhile_cons, this]
  | cons a t ih =>
    have ha : p a = true := h a (by simp)
    have ht := ih (fun c hc => h c (by simp [hc]))
    simp only [List.cons_append, List.takeWhile_cons_of_pos ha,
      List.dropWhile_cons_of_pos ha, ht.1, ht.2, and_self]

/-! ## Scanner progress: every produced segment consumes at least one
character, so the fuel in tokenizeAux / getLoopAux never runs out. -/

theorem scanStep_seg_length_lt (rest r2 : List Char) (s : Seg)
    (h : scanStep rest = .seg s r2) : r2.length < rest.length := by
  unfold scanStep at h
  rcases hd : rest.dropWhile isJsWs with _ | ⟨c, r1⟩
  · rw [hd] at h; exact absurd h (by simp)
  · rw [hd] at h
    have hlen : (c :: r1).length ≤ rest.length := by
      rw [← hd]; exact length_dropWhile_le _ _
    by_cases hdot : c = '.'
    · simp only [hdot, if_pos rfl] at h
      by_cases hk : ((r1.dropWhile isJsWs).takeWhile isIdentChar).isEmpty
      · rw [if_pos hk] at h; exact absurd h (by simp)
      · rw [if_neg hk] at h
        have h2 : r2 = (r1.dropWhile isJsWs).dropWhile isIdentChar := by
          cases h; rfl
        calc r2.length ≤ (r1.dropWhile isJsWs).length := by
              rw [h2]; exact length_dropWhile_le _ _
          _ ≤ r1.length := length_dropWhile_le _ _
          _ < (c :: r1).length := by simp
          _ ≤ rest.length := hlen
    · simp only [if_neg hdot] at h
      by_cases hbr : c = '['
      · rw [if_pos hbr] at h
        have hr1 : r1.length < rest.length := by
          have : r1.length < (c :: r1).length := by simp
          omega
        have hscan : ∀ (rr : List Char), rr.length ≤ r1.length →
            scanDigits rr = .seg s r2 → r2.length < rest.length := by
          intro rr hrr hsd
          unfold scanDigits at hsd
          rcases hdd : ((rr.dropWhile isDigitChar).dropWhile isJsWs) with _ | ⟨c5, r5⟩
          · rw [hdd] at hsd; exact absurd hsd (by simp)
          · rw [hdd] at hsd
            by_cases hc5 : c5 = ']'
            · subst hc5
              by_cases hds : (rr.takeWhile isDigitChar).isEmpty
              · simp only [if_pos hds] at hsd
                exact absurd hsd (by simp)
              · simp only [if_neg hds] at hsd
                have h2 : r2 = r5 := by cases hsd; rfl
                have : (']' :: r5).length ≤ rr.length := by
                  rw [← hdd]
                  calc ((rr.dropWhile isDigitChar).dropWhile isJsWs).length
                      ≤ (rr.dropWhile isDigitChar).length := length_dropWhile_le _ _
                    _ ≤ rr.length := length_dropWhile_le _ _
                have : r5.length < rr.length := by simp at this; omega
                rw [h2]; omega
            · have : (match c5 :: r5 with
                | ']' :: r5 => if (rr.takeWhile isDigitChar).isEmpty then StepRes.fail
                    else .seg (.index (digitsToNat (rr.takeWhile isDigitChar))) r5
                | _ => StepRes.fail) = StepRes.fail := by
                cases c5' : c5 <;> simp_all [hc5]
              rw [this] at hsd; exact absurd hsd (by simp)
        rcases hr2 : r1.dropWhile isJsWs with _ | ⟨q, r3⟩
        · rw [hr2] at h
          exact hscan [] (by simp) h
        · rw [hr2] at h
          have hqlen : (q :: r3).length ≤ r1.length := by
            rw [← hr2]; exact length_dropWhile_le _ _
          by_cases hq : isQuote q
          · simp only [if_pos hq] at h
            rcases hdrop : r3.dropWhile (fun a => !(a == q)) with _ | ⟨c4, r4⟩
            · rw [hdrop] at h; exact absurd h (by simp)
            · rw [hdrop] at h
              dsimp only at h
              rcases hws : r4.dropWhile isJsWs with _ | ⟨c5, r5⟩
              · rw [hws] at h; exact absurd h (by simp)
              · rw [hws] at h
                by_cases hc5 : c5 = ']'
                · subst hc5
                  have h2 : r2 = r5 := by cases h; rfl
                  have l1 : (c4 :: r4).length ≤ r3.length := by
                    rw [← hdrop]; exact length_dropWhile_le _ _
                  have l2 : (']' :: r5).length ≤ r4.length := by
                    rw [← hws]; exact length_dropWhile_le _ _
                  simp at l1 l2
                  simp at hqlen
                  rw [h2]; omega
                · have : (match c5 :: r5 with
                    | ']' :: r5 => StepRes.seg (.key ⟨r3.takeWhile (fun a => !(a == q))⟩) r5
                    | _ => StepRes.fail) = StepRes.fail := by
                    cases c5' : c5 <;> simp_all [hc5]
                  rw [this] at h; exact absurd h (by simp)
          · simp only [if_neg hq] at h
            exact hscan (q :: r3) hqlen h
      · rw [if_neg hbr] at h; exact absurd h (by simp)

/-! ## Fuel elimination: tokenizeFrom and getLoop satisfy the intended
one-step unfolding equations. -/

theorem tokenizeAux_fuel (f g : Nat) (rest : List Char)
    (hf : rest.length < f) (hg : rest.length < g) :
    tokenizeAux f rest = tokenizeAux g rest := by
  induction f generalizing rest g with
  | zero => omega
  | succ f ih =>
    cases g with
    | zero => omega
    | succ g =>
      show (match scanStep rest with
        | .done t => some ([], t)
        | .fail => none
        | .seg s r2 => (tokenizeAux f r2).map (fun (p : List Seg × List Char) => (s :: p.1, p.2))) =
        (match scanStep rest with
        | .done t => some ([], t)
        | .fail => none
        | .seg s r2 => (tokenizeAux g r2).map (fun (p : List Seg × List Char) => (s :: p.1, p.2)))
      rcases hs : scanStep rest with t | _ | ⟨s, r2⟩
      · rfl
      · rfl
      · have hlt := scanStep_seg_length_lt rest r2 s hs
        dsimp only
        rw [ih g r2 (by omega) (by omega)]

theorem tokenizeFrom_unfold (rest : List Char) :
    tokenizeFrom rest = (match scanStep rest with
      | .done t => some ([], t)
      | .fail => none
      | .seg s r2 => (tokenizeFrom r2).map (fun p => (s :: p.1, p.2))) := by
  show (match scanStep rest with
    | .done t => some ([], t)
    | .fail => none
    | .seg s r2 => (tokenizeAux rest.length r2).map (fun (p : List Seg × List Char) => (s :: p.1, p.2))) = _
  rcases hs : scanStep rest with t | _ | ⟨s, r2⟩
  · rfl
  · rfl
  · have hlt := scanStep_seg_length_lt rest r2 s hs
    simp only [tokenizeAux_fuel rest.length (r2.length + 1) r2 (by omega) (by omega)]
    rfl

theorem getLoopAux_fuel (f g : Nat) (cur : JSValue) (rest : List Char)
    (hf : rest.length < f) (hg : rest.length < g) :
    getLoopAux f cur rest = getLoopAux g cur rest := by
  induction f generalizing rest g cur with
  | zero => omega
  | succ f ih =>
    cases g with
    | zero => omega
    | succ g =>
      show (match scanStep rest with
        | .done _ => some cur
        | .fail => some JSValue.undef
        | .seg s r2 =>
          match s with
          | .key k =>
            if isNullish cur then some JSValue.undef
            else
              match jsGetK cur k with
              | none => none
              | some c => getLoopAux f c r2
          | .index n =>
            match cur with
            | .arr e _ => getLoopAux f (e.getD n JSValue.undef) r2
            | _ => some JSValue.undef) =
        (match scanStep rest with
        | .done _ => some cur
        | .fail => some JSValue.undef
        | .seg s r2 =>
          match s with
          | .key k =>
            if isNullish cur then some JSValue.undef
            else
              match jsGetK cur k with
              | none => none
              | some c => getLoopAux g c r2
          | .index n =>
            match cur with
            | .arr e _ => getLoopAux g (e.getD n JSValue.undef) r2
            | _ => some JSValue.undef)
      rcases hs : scanStep rest with t | _ | ⟨s, r2⟩
      · rfl
      · rfl
      · have hlt := scanStep_seg_length_lt rest r2 s hs
        rcases s with k | n
        · by_cases hn : isNullish cur
          · simp only [if_pos hn]
          · simp only [if_neg hn]
            rcases jsGetK cur k with _ | c
            · rfl
            · exact ih g c r2 (by omega) (by omega)
        · rcases cur with _ | _ | b | m | sv | m | ⟨e, p⟩ <;>
            first
            | rfl
            | exact ih g (e.getD n JSValue.undef) r2 (by omega) (by omega)

theorem getLoop_unfold (cur : JSValue) (rest : List Char) :
    getLoop cur rest = (match scanStep rest with
      | .done _ => some cur
      | .fail => some JSValue.undef
      | .seg s r2 =>
        match s with
        | .key k =>
          if isNullish cur then some JSValue.undef
          else
            match jsGetK cur k with
            | none => none
            | some c => getLoop c r2
        | .index n =>
          match cur with
          | .arr e _ => getLoop (e.getD n JSValue.undef) r2
          | _ => some JSValue.undef) := by
  show (match scanStep rest with
    | .done _ => some cur
    | .fail => some JSValue.undef
    | .seg s r2 =>
      match s with
      | .key k =>
        if isNullish cur then some JSValue.undef
        else
          match jsGetK cur k with
          | none => none
          | some c => getLoopAux rest.length c r2
      | .index n =>
        match cur with
        | .arr e _ => getLoopAux rest.length (e.getD n JSValue.undef) r2
        | _ => some JSValue.undef) = _
  rcases hs : scanStep rest with t | _ | ⟨s, r2⟩
  · rfl
  · rfl
  · have hlt := scanStep_seg_length_lt rest r2 s hs
    rcases s with k | n
    · by_cases hn : isNullish cur
      · simp only [if_pos hn]
      · simp only [if_neg hn]
        rcases jsGetK cur k with _ | c
        · rfl
        · exact getLoopAux_fuel rest.length (r2.length + 1) c r2 (by omega) (by omega)
    · rcases cur with _ | _ | b | m | sv | m | ⟨e, p⟩ <;>
        first
        | rfl
        | exact getLoopAux_fuel rest.length (r2.length + 1) (e.getD n JSValue.undef) r2
            (by omega) (by omega)

/-! ## Decomposition: the interleaved loop of the getter equals full
tokenization followed by segment-level traversal. -/

theorem getWalk_undef (segs : List Seg) : getWalk JSValue.undef segs = some JSValue.undef := by
  cases segs with
  | nil => rfl
  | cons s rest => cases s <;> rfl

theorem getLoop_decomp_aux (N : Nat) :
    ∀ (rest : List Char) (cur : JSValue), rest.length ≤ N →
    getLoop cur rest = (match tokenizeFrom rest with
      | none => some JSValue.undef
      | some (segs, _) => getWalk cur segs) := by
  induction N with
  | zero =>
    intro rest cur hlen
    have : rest = [] := by
      cases rest with
      | nil => rfl
      | cons a t => simp at hlen
    subst this
    rfl
  | succ N ih =>
    intro rest cur hlen
    rw [getLoop_unfold, tokenizeFrom_unfold]
    rcases hs : scanStep rest with t | _ | ⟨s, r2⟩
    · rfl
    · rfl
    · have hlt := scanStep_seg_length_lt rest r2 s hs
      have hr2 : r2.length ≤ N := by omega
      rcases s with k | n
      · dsimp only
        by_cases hn : isNullish cur
        · simp only [if_pos hn]
          rcases ht : tokenizeFrom r2 with _ | ⟨segs, t⟩
          · rfl
          · simp only [Option.map, getWalk, if_pos hn]
        · simp only [if_neg hn]
          rcases hg : jsGetK cur k with _ | c
          · rcases cur with _ | _ | b | m | sv | m | ⟨e, p⟩ <;>
              simp_all [isNullish, jsGetK]
          · dsimp only
            rw [ih r2 c hr2]
            rcases ht : tokenizeFrom r2 with _ | ⟨segs, t⟩
            · rfl
            · simp only [Option.map, getWalk, if_neg hn, hg]
      · dsimp only
        rcases cur with _ | _ | b | m | sv | m | ⟨e, p⟩
        · rcases ht : tokenizeFrom r2 with _ | ⟨segs, t⟩ <;> rfl
        · rcases ht : tokenizeFrom r2 with _ | ⟨segs, t⟩ <;> rfl
        · rcases ht : tokenizeFrom r2 with _ | ⟨segs, t⟩ <;> rfl
        · rcases ht : tokenizeFrom r2 with _ | ⟨segs, t⟩ <;> rfl
        · rcases ht : tokenizeFrom r2 with _ | ⟨segs, t⟩ <;> rfl
        · rcases ht : tokenizeFrom r2 with _ | ⟨segs, t⟩ <;> rfl
        · dsimp only
          rw [ih r2 (e.getD n JSValue.undef) hr2]
          rcases ht : tokenizeFrom r2 with _ | ⟨segs, t⟩ <;> rfl
        · rcases ht : tokenizeFrom r2 with _ | ⟨segs, t⟩ <;> rfl

theorem getLoop_decomp (cur : JSValue) (rest : List Char) :
    getLoop cur rest = (match tokenizeFrom rest with
      | none => some JSValue.undef
      | some (segs, _) => getWalk cur segs) :=
  getLoop_decomp_aux rest.length rest cur (Nat.le_refl _)

/-! ## Coherence of container reads and writes -/

theorem findAssoc_putAssoc (m : List (String × JSValue)) (k : String) (v : JSValue) :
    findAssoc (putAssoc m k v) k = some v := by
  induction m with
  | nil => simp [putAssoc, findAssoc]
  | cons h t ih =>
    obtain ⟨a, b⟩ := h
    by_cases hak : a = k
    · simp [putAssoc, findAssoc, hak]
    · simp [putAssoc, findAssoc, hak, ih]

theorem getD_nil (n : Nat) (d : JSValue) : ([] : List JSValue).getD n d = d := by
  cases n <;> rfl

theorem getD_cons_zero (h : JSValue) (t : List JSValue) (d : JSValue) :
    (h :: t).getD 0 d = h := rfl

theorem getD_cons_succ (h : JSValue) (t : List JSValue) (n : Nat) (d : JSValue) :
    (h :: t).getD (n + 1) d = t.getD n d := rfl

theorem arrSet_getD (e : List JSValue) (n : Nat) (v : JSValue) :
    (arrSet e n v).getD n JSValue.undef = v := by
  induction e generalizing n with
  | nil =>
    induction n with
    | zero => rfl
    | succ n ihn =>
      show (JSValue.undef :: arrSet [] n v).getD (n + 1) JSValue.undef = v
      rw [getD_cons_succ]
      exact ihn
  | cons h t ih =>
    cases n with
    | zero => rfl
    | succ n =>
      show (h :: arrSet t n v).getD (n + 1) JSValue.undef = v
      rw [getD_cons_succ]
      exact ih n

theorem arrSet_length (e : List JSValue) (n : Nat) (v : JSValue) :
    (arrSet e n v).length = max e.length (n + 1) := by
  induction e generalizing n with
  | nil =>
    induction n with
    | zero => rfl
    | succ n ihn =>
      show (JSValue.undef :: arrSet [] n v).length = _
      simp only [List.length_cons, ihn, List.length_nil]
      omega
  | cons h t ih =>
    cases n with
    | zero => simp [arrSet]
    | succ n =>
      show (h :: arrSet t n v).length = _
      simp only [List.length_cons, ih n]
      omega

theorem arrSet_getD_lower (e : List JSValue) (n : Nat) (v : JSValue) (j : Nat)
    (hj : j < e.length) (hne : j ≠ n) :
    (arrSet e n v).getD j JSValue.undef = e.getD j JSValue.undef := by
  induction e generalizing n j with
  | nil => simp at hj
  | cons h t ih =>
    cases n with
    | zero =>
      cases j with
      | zero => omega
      | succ j => rfl
    | succ n =>
      cases j with
      | zero => rfl
      | succ j =>
        show (h :: arrSet t n v).getD (j + 1) JSValue.undef = _
        rw [getD_cons_succ, getD_cons_succ]
        exact ih n j (by simpa using hj) (by omega)

theorem arrSet_getD_between (e : List JSValue) (n : Nat) (v : JSValue) (j : Nat)
    (hj : e.length ≤ j) (hjn : j < n) :
    (arrSet e n v).getD j JSValue.undef = JSValue.undef := by
  induction e generalizing n j with
  | nil =>
    induction n generalizing j with
    | zero => omega
    | succ n ihn =>
      cases j with
      | zero => rfl
      | succ j =>
        show (JSValue.undef :: arrSet [] n v).getD (j + 1) JSValue.undef = _
        rw [getD_cons_succ]
        exact ihn j (by simp) (by omega)
  | cons h t ih =>
    cases n with
    | zero => omega
    | succ n =>
      cases j with
      | zero => simp at hj
      | succ j =>
        show (h :: arrSet t n v).getD (j + 1) JSValue.undef = _
        rw [getD_cons_succ]
        exact ih n j (by simpa using hj) (by omega)

/-! ## Facts about guarded property access -/

theorem jsGetK_of_not_nullish (cur : JSValue) (k : String)
    (h : isNullish cur = false) : ∃ c, jsGetK cur k = some c := by
  cases cur <;> simp_all [isNullish, jsGetK]

theorem jsPutK_get (cur cur2 x : JSValue) (k : String) (hk : ¬(k = "length"))
    (hput : jsPutK cur k x = some cur2) :
    jsGetK cur2 k = some x ∧ isObjLike cur2 = true := by
  cases cur with
  | obj m =>
    simp only [jsPutK, Option.some.injEq] at hput
    subst hput
    simp [jsGetK, isObjLike, findAssoc_putAssoc]
  | arr e p =>
    simp only [jsPutK, if_neg hk, Option.some.injEq] at hput
    subst hput
    simp [jsGetK, isObjLike, findAssoc_putAssoc, hk]
  | null => simp [jsPutK] at hput
  | undef => simp [jsPutK] at hput
  | bool b => simp [jsPutK] at hput
  | num n => simp [jsPutK] at hput
  | str s => simp [jsPutK] at hput
  | fn => simp [jsPutK] at hput

theorem jsPutK_some_of_objLike (cur x : JSValue) (k : String) (hk : ¬(k = "length"))
    (h : isObjLike cur = true) : ∃ cur2, jsPutK cur k x = some cur2 := by
  cases cur with
  | obj m => exact ⟨.obj (putAssoc m k x), rfl⟩
  | arr e p => exact ⟨.arr e (putAssoc p k x), by simp [jsPutK, if_neg hk]⟩
  | null => simp [isObjLike] at h
  | undef => simp [isObjLike] at h
  | bool b => simp [isObjLike] at h
  | num n => simp [isObjLike] at h
  | str s => simp [isObjLike] at h
  | fn => simp [isObjLike] at h

theorem not_nullish_of_objLike (x : JSValue) (h : isObjLike x = true) :
    isNullish x = false := by
  cases x <;> simp_all [isObjLike, isNullish]

/-! ## Round trip: a successful walk over plain-key segments writes v
where the getter's walk over the same segments will read it back.  The
plain-key restriction rules out the exotic array length key (whose write
coerces the value instead of storing it) and the prototype accessor
key. -/

theorem setWalk_getWalk :
    ∀ (segs : List Seg) (cur v cur2 : JSValue),
    setWalk cur v segs = some (true, cur2) → segs ≠ [] →
    segs.all Seg.plainKey = true →
    getWalk cur2 segs = some v := by
  intro segs
  have btrue : ∀ (x : JSValue) (b : Bool) (y z : JSValue),
      some (b, x) = some ((true : Bool), y) → b = true ∧ y = x := by
    intro x b y z hab
    injection hab with h1
    injection h1 with hb hv
    exact ⟨hb, hv.symm⟩
  induction segs with
  | nil => intro cur v cur2 h hne hall; exact absurd rfl hne
  | cons seg rest ih =>
    intro cur v cur2 h hne hall
    simp only [List.all_cons, Bool.and_eq_true] at hall
    obtain ⟨hpk, hall2⟩ := hall
    cases rest with
    | nil =>
      cases seg with
      | key k =>
        simp only [Seg.plainKey, Bool.and_eq_true, Bool.not_eq_true', beq_eq_false_iff_ne,
          ne_eq] at hpk
        by_cases hobj : isObjLike cur
        · rcases hp : jsPutK cur k v with _ | c2
          · simp only [setWalk, if_pos hobj, hp, Option.map_none'] at h
            exact Option.noConfusion h
          · simp only [setWalk, if_pos hobj, hp, Option.map_some'] at h
            obtain ⟨-, hc⟩ := btrue _ _ _ JSValue.undef h
            subst hc
            obtain ⟨hget, hobj2⟩ := jsPutK_get cur cur2 v k hpk.1 hp
            simp only [getWalk, not_nullish_of_objLike cur2 hobj2,
              Bool.false_eq_true, if_false, hget]
        · simp only [setWalk, if_neg hobj] at h
          injection h with h1
          injection h1 with hb hv
          exact Bool.noConfusion hb
      | index n =>
        rcases cur with _ | _ | b | m | sv | m | ⟨e, p⟩ | _ <;> simp only [setWalk] at h
        case arr =>
          by_cases hcap : e.length ≤ n ∧ maxArrayLength ≤ n
          · rw [if_pos hcap] at h
            exact Option.noConfusion h
          · rw [if_neg hcap] at h
            obtain ⟨-, hc⟩ := btrue _ _ _ JSValue.undef h
            subst hc
            simp only [getWalk, arrSet_getD]
        all_goals
          (injection h with h1; injection h1 with hb hv; exact Bool.noConfusion hb)
    | cons next rest2 =>
      cases seg with
      | key k =>
        simp only [Seg.plainKey, Bool.and_eq_true, Bool.not_eq_true', beq_eq_false_iff_ne,
          ne_eq] at hpk
        rcases hg : jsGetK cur k with _ | slot
        · simp only [setWalk, hg] at h
          exact Option.noConfusion h
        · by_cases hnull : isNullish slot
          · rcases hw : setWalk (freshFor next) v (next :: rest2) with _ | ⟨b, child⟩
            · simp only [setWalk, hg, if_pos hnull, hw] at h
              exact Option.noConfusion h
            · rcases hp : jsPutK cur k child with _ | c2
              · simp only [setWalk, hg, if_pos hnull, hw, hp, Option.map_none'] at h
                exact Option.noConfusion h
              · simp only [setWalk, hg, if_pos hnull, hw, hp, Option.map_some'] at h
                obtain ⟨hb, hc⟩ := btrue _ _ _ JSValue.undef h
                subst hb
                subst hc
                obtain ⟨hget, hobj2⟩ := jsPutK_get cur cur2 child k hpk.1 hp
                have hrec : getWalk child (next :: rest2) = some v :=
                  ih _ v child hw (by simp) hall2
                simp only [getWalk, not_nullish_of_objLike cur2 hobj2,
                  Bool.false_eq_true, if_false, hget, hrec]
          · by_cases hslot : isObjLike slot
            · rcases hw : setWalk slot v (next :: rest2) with _ | ⟨b, slot2⟩
              · simp only [setWalk, hg, if_neg hnull, if_pos hslot, hw] at h
                exact Option.noConfusion h
              · rcases hp : jsPutK cur k slot2 with _ | c2
                · simp only [setWalk, hg, if_neg hnull, if_pos hslot, hw, hp,
                    Option.map_none'] at h
                  exact Option.noConfusion h
                · simp only [setWalk, hg, if_neg hnull, if_pos hslot, hw, hp,
                    Option.map_some'] at h
                  obtain ⟨hb, hc⟩ := btrue _ _ _ JSValue.undef h
                  subst hb
                  subst hc
                  obtain ⟨hget, hobj2⟩ := jsPutK_get cur cur2 slot2 k hpk.1 hp
                  have hrec : getWalk slot2 (next :: rest2) = some v :=
                    ih _ v slot2 hw (by simp) hall2
                  simp only [getWalk, not_nullish_of_objLike cur2 hobj2,
                    Bool.false_eq_true, if_false, hget, hrec]
            · simp only [setWalk, hg, if_neg hnull, if_neg hslot] at h
              injection h with h1
              injection h1 with hb hv
              exact Bool.noConfusion hb
      | index n =>
        rcases cur with _ | _ | b | m | sv | m | ⟨e, p⟩ | _
        · simp only [setWalk] at h
          injection h with h1; injection h1 with hb hv; exact Bool.noConfusion hb
        · simp only [setWalk] at h
          injection h with h1; injection h1 with hb hv; exact Bool.noConfusion hb
        · simp only [setWalk] at h
          injection h with h1; injection h1 with hb hv; exact Bool.noConfusion hb
        · simp only [setWalk] at h
          injection h with h1; injection h1 with hb hv; exact Bool.noConfusion hb
        · simp only [setWalk] at h
          injection h with h1; injection h1 with hb hv; exact Bool.noConfusion hb
        · simp only [setWalk] at h
          injection h with h1; injection h1 with hb hv; exact Bool.noConfusion hb
        · by_cases hnull : isNullish (e.getD n JSValue.undef)
          · rcases hw : setWalk (freshFor next) v (next :: rest2) with _ | ⟨b, child⟩
            · simp only [setWalk, if_pos hnull, hw] at h
              exact Option.noConfusion h
            · simp only [setWalk, if_pos hnull, hw] at h
              obtain ⟨hb, hc⟩ := btrue _ _ _ JSValue.undef h
              subst hb
              subst hc
              have hrec : getWalk child (next :: rest2) = some v :=
                ih _ v child hw (by simp) hall2
              simp only [getWalk, arrSet_getD, hrec]
          · by_cases hslot : isObjLike (e.getD n JSValue.undef)
            · rcases hw : setWalk (e.getD n JSValue.undef) v (next :: rest2) with _ | ⟨b, slot2⟩
              · simp only [setWalk, if_neg hnull, if_pos hslot, hw] at h
                exact Option.noConfusion h
              · simp only [setWalk, if_neg hnull, if_pos hslot, hw] at h
                obtain ⟨hb, hc⟩ := btrue _ _ _ JSValue.undef h
                subst hb
                subst hc
                have hrec : getWalk slot2 (next :: rest2) = some v :=
                  ih _ v slot2 hw (by simp) hall2
                simp only [getWalk, arrSet_getD, hrec]
            · simp only [setWalk, if_neg hnull, if_neg hslot] at h
              injection h with h1
              injection h1 with hb hv
              exact Bool.noConfusion hb
        · simp only [setWalk] at h
          injection h with h1; injection h1 with hb hv; exact Bool.noConfusion hb

/-! ## Totality: the getter's walk never throws (every read is guarded);
the setter's walk never throws when started on a container. -/

theorem getWalk_total : ∀ (segs : List Seg) (cur : JSValue),
    ∃ r, getWalk cur segs = some r := by
  intro segs
  induction segs with
  | nil => intro cur; exact ⟨cur, rfl⟩
  | cons seg rest ih =>
    intro cur
    cases seg with
    | key k =>
      by_cases hn : isNullish cur
      · exact ⟨JSValue.undef, by simp only [getWalk, if_pos hn]⟩
      · obtain ⟨c, hc⟩ := jsGetK_of_not_nullish cur k (by simpa using hn)
        obtain ⟨r, hr⟩ := ih c
        exact ⟨r, by simp only [getWalk, if_neg hn, hc, hr]⟩
    | index n =>
      rcases cur with _ | _ | b | m | sv | m | ⟨e, p⟩ | _
      · exact ⟨JSValue.undef, rfl⟩
      · exact ⟨JSValue.undef, rfl⟩
      · exact ⟨JSValue.undef, rfl⟩
      · exact ⟨JSValue.undef, rfl⟩
      · exact ⟨JSValue.undef, rfl⟩
      · exact ⟨JSValue.undef, rfl⟩
      · obtain ⟨r, hr⟩ := ih (e.getD n JSValue.undef)
        exact ⟨r, by simp only [getWalk, hr]⟩
      · exact ⟨JSValue.undef, rfl⟩

theorem setWalk_total : ∀ (segs : List Seg) (cur v : JSValue),
    isObjLike cur = true → segs.all Seg.benign = true →
    ∃ r, setWalk cur v segs = some r := by
  intro segs
  induction segs with
  | nil => intro cur v _ _; exact ⟨(false, cur), rfl⟩
  | cons seg rest ih =>
    intro cur v hobj hall
    simp only [List.all_cons, Bool.and_eq_true] at hall
    obtain ⟨hben, hall2⟩ := hall
    cases rest with
    | nil =>
      cases seg with
      | key k =>
        simp only [Seg.benign, Bool.not_eq_true', beq_eq_false_iff_ne, ne_eq] at hben
        obtain ⟨c2, hc2⟩ := jsPutK_some_of_objLike cur v k hben hobj
        exact ⟨(true, c2), by simp only [setWalk, if_pos hobj, hc2, Option.map_some']⟩
      | index n =>
        simp only [Seg.benign, decide_eq_true_eq] at hben
        rcases cur with _ | _ | b | m | sv | m | ⟨e, p⟩ | _
        · exact ⟨(false, _), rfl⟩
        · exact ⟨(false, _), rfl⟩
        · exact ⟨(false, _), rfl⟩
        · exact ⟨(false, _), rfl⟩
        · exact ⟨(false, _), rfl⟩
        · exact ⟨(false, _), rfl⟩
        · have hcap : ¬(e.length ≤ n ∧ maxArrayLength ≤ n) := by
            simp only [maxArrayLength] at hben ⊢
            omega
          exact ⟨(true, .arr (arrSet e n v) p), by simp only [setWalk, if_neg hcap]⟩
        · exact ⟨(false, _), rfl⟩
    | cons next rest2 =>
      have hfreshObj : isObjLike (freshFor next) = true := by
        cases next <;> rfl
      cases seg with
      | key k =>
        simp only [Seg.benign, Bool.not_eq_true', beq_eq_false_iff_ne, ne_eq] at hben
        obtain ⟨slot, hg⟩ := jsGetK_of_not_nullish cur k
          (not_nullish_of_objLike cur hobj)
        by_cases hnull : isNullish slot
        · obtain ⟨⟨b, child⟩, hw⟩ := ih (freshFor next) v hfreshObj hall2
          obtain ⟨c2, hp⟩ := jsPutK_some_of_objLike cur child k hben hobj
          exact ⟨(b, c2), by
            simp only [setWalk, hg, if_pos hnull, hw, hp, Option.map_some']⟩
        · by_cases hslot : isObjLike slot
          · obtain ⟨⟨b, slot2⟩, hw⟩ := ih slot v hslot hall2
            obtain ⟨c2, hp⟩ := jsPutK_some_of_objLike cur slot2 k hben hobj
            exact ⟨(b, c2), by
              simp only [setWalk, hg, if_neg hnull, if_pos hslot, hw, hp,
                Option.map_some']⟩
          · exact ⟨(false, cur), by
              simp only [setWalk, hg, if_neg hnull, if_neg hslot]⟩
      | index n =>
        rcases cur with _ | _ | b | m | sv | m | ⟨e, p⟩ | _
        · simp [isObjLike] at hobj
        · simp [isObjLike] at hobj
        · simp [isObjLike] at hobj
        · simp [isObjLike] at hobj
        · simp [isObjLike] at hobj
        · exact ⟨(false, .obj m), rfl⟩
        · by_cases hnull : isNullish (e.getD n JSValue.undef)
          · obtain ⟨⟨b, child⟩, hw⟩ := ih (freshFor next) v hfreshObj hall2
            exact ⟨(b, .arr (arrSet e n child) p), by
              simp only [setWalk, if_pos hnull, hw]⟩
          · by_cases hslot : isObjLike (e.getD n JSValue.undef)
            · obtain ⟨⟨b, slot2⟩, hw⟩ := ih (e.getD n JSValue.undef) v hslot hall2
              exact ⟨(b, .arr (arrSet e n slot2) p), by
                simp only [setWalk, if_neg hnull, if_pos hslot, hw]⟩
            · exact ⟨(false, .arr e p), by
                simp only [setWalk, if_neg hnull, if_neg hslot]⟩
        · simp [isObjLike] at hobj

/-! ## API-level consequences -/

theorem getTinyJsonPathData_total (root : JSValue) :
    ∀ l : List Char, ∃ r, getTinyJsonPathData root l = some r := by
  intro l
  cases l with
  | nil => exact ⟨JSValue.undef, rfl⟩
  | cons c rest =>
    by_cases hc : c = '$'
    · simp only [getTinyJsonPathData, if_pos hc]
      rw [getLoop_decomp]
      rcases ht : tokenizeFrom rest with _ | ⟨segs, t⟩
      · exact ⟨JSValue.undef, rfl⟩
      · exact getWalk_total segs root
    · exact ⟨JSValue.undef, by simp only [getTinyJsonPathData, if_neg hc]⟩

theorem getTinyJsonPath_total (root : JSValue) (path : String) :
    ∃ r, getTinyJsonPath root path = some r :=
  getTinyJsonPathData_total root path.data

theorem setTinyJsonPathData_total_of_objLike (root v : JSValue)
    (hobj : isObjLike root = true) :
    ∀ l : List Char,
    (∀ segs t, tokenizeFrom l.tail = some (segs, t) → segs.all Seg.benign = true) →
    ∃ r, setTinyJsonPathData root v l = some r := by
  intro l hben
  cases l with
  | nil => exact ⟨(false, root), rfl⟩
  | cons c rest =>
    by_cases hc : c = '$'
    · simp only [setTinyJsonPathData, if_pos hc]
      rcases ht : tokenizeFrom rest with _ | ⟨segs, t⟩
      · exact ⟨(false, root), rfl⟩
      · by_cases hs : segs.isEmpty
        · exact ⟨(false, root), by simp [hs]⟩
        · obtain ⟨r, hr⟩ := setWalk_total segs root v hobj (hben segs t ht)
          exact ⟨r, by simp [hs, hr]⟩
    · exact ⟨(false, root), by simp only [setTinyJsonPathData, if_neg hc]⟩

theorem setTinyJsonPath_total_of_objLike (root : JSValue) (path : String)
    (v : JSValue) (hobj : isObjLike root = true)
    (hben : ∀ segs t, tokenizeFrom path.data.tail = some (segs, t) →
      segs.all Seg.benign = true) :
    ∃ r, setTinyJsonPath root path v = some r :=
  setTinyJsonPathData_total_of_objLike root v hobj path.data hben

theorem setTinyJsonPathData_roundtrip (root v root2 : JSValue) :
    ∀ l : List Char,
    (∀ segs t, tokenizeFrom l.tail = some (segs, t) → segs.all Seg.plainKey = true) →
    setTinyJsonPathData root v l = some (true, root2) →
    getTinyJsonPathData root2 l = some v := by
  have contra : ∀ (a b : JSValue) (C : Prop),
      some ((false : Bool), a) = some (true, b) → C := by
    intro a b C hab
    injection hab with h1
    injection h1 with hb hv
    exact Bool.noConfusion hb
  intro l hplain
  cases l with
  | nil =>
    intro h
    exact contra _ _ _ h
  | cons c rest =>
    intro h
    by_cases hc : c = '$'
    · simp only [setTinyJsonPathData, if_pos hc] at h
      simp only [getTinyJsonPathData, if_pos hc]
      rw [getLoop_decomp]
      rcases ht : tokenizeFrom rest with _ | ⟨segs, t⟩
      · rw [ht] at h
        exact contra _ _ _ h
      · rw [ht] at h
        dsimp only at h ⊢
        by_cases hs : segs.isEmpty
        · rw [if_pos hs] at h
          exact contra _ _ _ h
        · rw [if_neg hs] at h
          exact setWalk_getWalk segs root v root2 h (by simpa using hs)
            (hplain segs t ht)
    · simp only [setTinyJsonPathData, if_neg hc] at h
      exact contra _ _ _ h

theorem setTinyJsonPath_roundtrip (root : JSValue) (path : String)
    (v root2 : JSValue)
    (hplain : ∀ segs t, tokenizeFrom path.data.tail = some (segs, t) →
      segs.all Seg.plainKey = true)
    (h : setTinyJsonPath root path v = some (true, root2)) :
    getTinyJsonPath root2 path = some v :=
  setTinyJsonPathData_roundtrip root v root2 path.data hplain h

/-! ## Character class separation facts -/

theorem ws_not_ident (c : Char) (h : isJsWs c = true) : isIdentChar c = false := by
  simp only [isJsWs, Bool.or_eq_true, beq_iff_eq, Bool.and_eq_true,
    decide_eq_true_eq] at h
  cases hb : isIdentChar c
  · rfl
  · exfalso
    simp only [isIdentChar, Bool.or_eq_true, beq_iff_eq, Bool.and_eq_true,
      decide_eq_true_eq] at hb
    omega

theorem ident_not_ws (c : Char) (h : isIdentChar c = true) : isJsWs c = false := by
  simp only [isIdentChar, Bool.or_eq_true, beq_iff_eq, Bool.and_eq_true,
    decide_eq_true_eq] at h
  cases hb : isJsWs c
  · rfl
  · exfalso
    simp only [isJsWs, Bool.or_eq_true, beq_iff_eq, Bool.and_eq_true,
      decide_eq_true_eq] at hb
    omega

theorem digit_not_ws (c : Char) (h : isDigitChar c = true) : isJsWs c = false := by
  simp only [isDigitChar, Bool.and_eq_true, decide_eq_true_eq] at h
  cases hb : isJsWs c
  · rfl
  · exfalso
    simp only [isJsWs, Bool.or_eq_true, beq_iff_eq, Bool.and_eq_true,
      decide_eq_true_eq] at hb
    omega

theorem quote_not_ws (q : Char) (h : isQuote q = true) : isJsWs q = false := by
  simp only [isQuote, Bool.or_eq_true, beq_iff_eq] at h
  rcases h with rfl | rfl <;> rfl

theorem digit_not_quote (c : Char) (h : isDigitChar c = true) :
    isQuote c = false := by
  simp only [isDigitChar, Bool.and_eq_true, decide_eq_true_eq] at h
  cases hb : isQuote c
  · rfl
  · exfalso
    simp only [isQuote, Bool.or_eq_true, beq_iff_eq, dqChar, sqChar] at hb
    rcases hb with rfl | rfl <;> exact absurd h (by decide)

theorem quote_ne_backslash (q : Char) (h : isQuote q = true) : q ≠ '\\' := by
  simp only [isQuote, Bool.or_eq_true, beq_iff_eq] at h
  rcases h with rfl | rfl <;> decide

theorem quote_ne_rbracket (q : Char) (h : isQuote q = true) : q ≠ ']' := by
  simp only [isQuote, Bool.or_eq_true, beq_iff_eq] at h
  rcases h with rfl | rfl <;> decide

theorem headNotIdent_spec (l : List Char) (h : headNotIdent l = true) :
    ∀ c, l.head? = some c → isIdentChar c = false := by
  intro c hc
  cases l with
  | nil => simp at hc
  | cons a t =>
    simp only [List.head?_cons, Option.some.injEq] at hc
    subst hc
    simpa [headNotIdent, Bool.not_eq_true'] using h

theorem scanStep_render (sr : SegR) (rest : List Char)
    (hv : sr.validB = true)
    (hdot : sr.isDot = true → headNotIdent rest = true) :
    scanStep (sr.render ++ rest) = .seg sr.seg rest := by
  cases sr with
  | dot ws0 ws1 k =>
    simp only [SegR.validB, Bool.and_eq_true, List.all_eq_true,
      Bool.not_eq_true'] at hv
    obtain ⟨⟨⟨hws0, hws1⟩, hkne⟩, hkid⟩ := hv
    have hrni := headNotIdent_spec rest (hdot rfl)
    have e1 : SegR.render (SegR.dot ws0 ws1 k) ++ rest =
        ws0 ++ ('.' :: (ws1 ++ (k ++ rest))) := by
      simp [SegR.render]
    rw [e1]
    unfold scanStep
    rw [dropWhile_all_append _ _ _ hws0,
      List.dropWhile_cons_of_neg (by decide)]
    dsimp only
    rw [if_pos rfl]
    rw [dropWhile_all_append _ _ _ hws1]
    cases k with
    | nil => simp at hkne
    | cons kh kt =>
      have hkh : isJsWs kh = false :=
        ident_not_ws kh (hkid kh (by simp))
      have e2 : ((kh :: kt) ++ rest).dropWhile isJsWs = (kh :: kt) ++ rest := by
        rw [List.cons_append]
        rw [List.dropWhile_cons_of_neg (by simp [hkh])]
      rw [e2]
      obtain ⟨e3, e4⟩ := takeWhile_all_append isIdentChar (kh :: kt) rest hkid hrni
      rw [e3, e4]
      rw [if_neg (by simp)]
      rfl
  | brq ws0 ws1 ws2 q k =>
    simp only [SegR.validB, Bool.and_eq_true, List.all_eq_true] at hv
    obtain ⟨⟨⟨⟨hws0, hws1⟩, hws2⟩, hq⟩, hkq⟩ := hv
    have e1 : SegR.render (SegR.brq ws0 ws1 ws2 q k) ++ rest =
        ws0 ++ ('[' :: (ws1 ++ (q :: (k ++ q :: (ws2 ++ (']' :: rest)))))) := by
      simp [SegR.render]
    rw [e1]
    unfold scanStep
    rw [dropWhile_all_append _ _ _ hws0,
      List.dropWhile_cons_of_neg (by decide)]
    dsimp only
    rw [if_neg (by decide), if_pos rfl]
    rw [dropWhile_all_append _ _ _ hws1,
      List.dropWhile_cons_of_neg (by simp [quote_not_ws q hq])]
    dsimp only
    rw [if_pos hq]
    have hstop : ∀ c, (q :: (ws2 ++ (']' :: rest))).head? = some c →
        (fun a => !(a == q)) c = false := by
      intro c hc
      simp only [List.head?_cons, Option.some.injEq] at hc
      subst hc
      simp
    obtain ⟨e3, e4⟩ := takeWhile_all_append (fun a => !(a == q)) k
      (q :: (ws2 ++ (']' :: rest))) hkq hstop
    rw [e3, e4]
    dsimp only
    rw [dropWhile_all_append _ _ _ hws2,
      List.dropWhile_cons_of_neg (by decide)]
    rfl
  | bri ws0 ws1 ws2 ds =>
    simp only [SegR.validB, Bool.and_eq_true, List.all_eq_true,
      Bool.not_eq_true'] at hv
    obtain ⟨⟨⟨⟨hws0, hws1⟩, hws2⟩, hdne⟩, hdd⟩ := hv
    have e1 : SegR.render (SegR.bri ws0 ws1 ws2 ds) ++ rest =
        ws0 ++ ('[' :: (ws1 ++ (ds ++ (ws2 ++ (']' :: rest))))) := by
      simp [SegR.render]
    rw [e1]
    unfold scanStep
    rw [dropWhile_all_append _ _ _ hws0,
      List.dropWhile_cons_of_neg (by decide)]
    dsimp only
    rw [if_neg (by decide), if_pos rfl]
    rw [dropWhile_all_append _ _ _ hws1]
    cases ds with
    | nil => simp at hdne
    | cons dh dt =>
      have hdh : isJsWs dh = false :=
        digit_not_ws dh (hdd dh (by simp))
      have e2 : ((dh :: dt) ++ (ws2 ++ (']' :: rest))).dropWhile isJsWs =
          dh :: (dt ++ (ws2 ++ (']' :: rest))) := by
        rw [List.cons_append]
        rw [List.dropWhile_cons_of_neg (by simp [hdh])]
      rw [e2]
      dsimp only
      rw [if_neg (by simp [digit_not_quote dh (hdd dh (by simp))])]
      unfold scanDigits
      have hstop : ∀ c, (ws2 ++ (']' :: rest)).head? = some c →
          isDigitChar c = false := by
        intro c hc
        cases ws2 with
        | nil =>
          simp only [List.nil_append, List.head?_cons, Option.some.injEq] at hc
          subst hc
          decide
        | cons w wt =>
          simp only [List.cons_append, List.head?_cons, Option.some.injEq] at hc
          have hw := hws2 w (by simp)
          rw [← hc]
          cases hb : isDigitChar w
          · rfl
          · exact absurd hw (by simp [digit_not_ws w hb])
      have e3 := takeWhile_all_append isDigitChar (dh :: dt) (ws2 ++ (']' :: rest))
        hdd hstop
      rw [List.cons_append] at e3
      rw [e3.1, e3.2]
      rw [dropWhile_all_append _ _ _ hws2,
        List.dropWhile_cons_of_neg (by decide)]
      rfl

theorem tokenizeFrom_ws (tail : List Char) (h : tail.all isJsWs = true) :
    tokenizeFrom tail = some ([], []) := by
  rw [tokenizeFrom_unfold]
  have hs : scanStep tail = .done [] := by
    unfold scanStep
    rw [dropWhile_all_nil _ _ (by simpa [List.all_eq_true] using h)]
  rw [hs]

theorem tokenizeFrom_renderSegs (rs : List SegR) (tail : List Char)
    (hok : rendersOkB rs tail = true) :
    tokenizeFrom (renderSegs rs ++ tail) =
      (tokenizeFrom tail).map (fun p => (rs.map SegR.seg ++ p.1, p.2)) := by
  induction rs with
  | nil =>
    simp only [renderSegs, List.nil_append, List.map_nil]
    rcases ht : tokenizeFrom tail with _ | ⟨segs, t⟩
    · rfl
    · rfl
  | cons sr rs ih =>
    simp only [rendersOkB, Bool.and_eq_true] at hok
    obtain ⟨⟨hval, hdotok⟩, hrest⟩ := hok
    have hd : sr.isDot = true → headNotIdent (renderSegs rs ++ tail) = true := by
      intro hisdot
      simp only [Bool.or_eq_true, Bool.not_eq_true'] at hdotok
      rcases hdotok with h1 | h2
      · rw [hisdot] at h1
        exact Bool.noConfusion h1
      · exact h2
    have hscan := scanStep_render sr (renderSegs rs ++ tail) hval hd
    have e : renderSegs (sr :: rs) ++ tail = sr.render ++ (renderSegs rs ++ tail) := by
      simp [renderSegs]
    rw [e, tokenizeFrom_unfold, hscan]
    dsimp only
    rw [ih hrest]
    rcases ht : tokenizeFrom tail with _ | ⟨segs, t⟩
    · rfl
    · rfl

theorem tokenizeFrom_pathOf (rs : List SegR) (wsEnd : List Char)
    (hok : rendersOkB rs wsEnd = true) (hws : wsEnd.all isJsWs = true) :
    tokenizeFrom (renderSegs rs ++ wsEnd) = some (rs.map SegR.seg, []) := by
  rw [tokenizeFrom_renderSegs rs wsEnd hok, tokenizeFrom_ws wsEnd hws]
  simp

theorem getTinyJsonPath_pathOf (root : JSValue) (rs : List SegR)
    (wsEnd : List Char) (hok : rendersOkB rs wsEnd = true)
    (hws : wsEnd.all isJsWs = true) :
    getTinyJsonPath root (pathOf rs wsEnd) = getWalk root (rs.map SegR.seg) := by
  show getTinyJsonPathData root ('$' :: (renderSegs rs ++ wsEnd)) = _
  simp only [getTinyJsonPathData, if_true]
  rw [getLoop_decomp, tokenizeFrom_pathOf rs wsEnd hok hws]

theorem setTinyJsonPath_pathOf (root v : JSValue) (rs : List SegR)
    (wsEnd : List Char) (hok : rendersOkB rs wsEnd = true)
    (hws : wsEnd.all isJsWs = true) :
    setTinyJsonPath root (pathOf rs wsEnd) v =
      (if (rs.map SegR.seg).isEmpty then some (false, root)
       else setWalk root v (rs.map SegR.seg)) := by
  show setTinyJsonPathData root v ('$' :: (renderSegs rs ++ wsEnd)) = _
  simp only [setTinyJsonPathData, if_true]
  rw [tokenizeFrom_pathOf rs wsEnd hok hws]

theorem escQ_split (q : Char) (A R : List Char)
    (hA : A.all (fun a => !(a == q)) = true) :
    escQ q (A ++ q :: R) = A ++ '\\' :: q :: escQ q R := by
  induction A with
  | nil => simp [escQ]
  | cons a t ih =>
    simp only [List.all_cons, Bool.and_eq_true, Bool.not_eq_true',
      beq_eq_false_iff_ne, ne_eq] at hA
    have ht : t.all (fun a => !(a == q)) = true := hA.2
    show escQ q (a :: (t ++ q :: R)) = a :: (t ++ '\\' :: q :: escQ q R)
    simp only [escQ, if_neg hA.1]
    rw [ih ht]

theorem scanStep_escaped_fail (ws0 ws1 ws2 : List Char) (q : Char)
    (A R suffix : List Char)
    (hq : isQuote q = true) (hA : A.all (fun a => !(a == q)) = true)
    (hws0 : ws0.all isJsWs = true) (hws1 : ws1.all isJsWs = true)
    (hno : ((escQ q R ++ q :: (ws2 ++ (']' :: suffix))).dropWhile isJsWs).head? ≠
      some ']') :
    scanStep (ws0 ++ '[' :: (ws1 ++ q ::
      (escQ q (A ++ q :: R) ++ q :: (ws2 ++ (']' :: suffix))))) = .fail := by
  rw [escQ_split q A R hA]
  unfold scanStep
  rw [dropWhile_all_append _ _ _ (by simpa [List.all_eq_true] using hws0),
    List.dropWhile_cons_of_neg (by decide)]
  dsimp only
  rw [if_neg (by decide), if_pos rfl]
  rw [dropWhile_all_append _ _ _ (by simpa [List.all_eq_true] using hws1),
    List.dropWhile_cons_of_neg (by simp [quote_not_ws q hq])]
  dsimp only
  rw [if_pos hq]
  have hstop : ∀ c, (q :: (escQ q R ++ q :: (ws2 ++ (']' :: suffix)))).head? = some c →
      (fun a => !(a == q)) c = false := by
    intro c hc
    simp only [List.head?_cons, Option.some.injEq] at hc
    rw [← hc]
    simp
  have hbs : ∀ c ∈ A ++ ['\\'], (fun a => !(a == q)) c = true := by
    intro c hc
    rw [List.mem_append] at hc
    rcases hc with hc | hc
    · simp only [List.all_eq_true] at hA
      exact hA c hc
    · simp only [List.mem_singleton] at hc
      subst hc
      have := quote_ne_backslash q hq
      simp [this.symm]
  have e0 : (A ++ '\\' :: q :: escQ q R) ++ q :: (ws2 ++ (']' :: suffix)) =
      (A ++ ['\\']) ++ (q :: (escQ q R ++ q :: (ws2 ++ (']' :: suffix)))) := by
    simp
  rw [e0]
  obtain ⟨e3, e4⟩ := takeWhile_all_append (fun a => !(a == q)) (A ++ ['\\'])
    (q :: (escQ q R ++ q :: (ws2 ++ (']' :: suffix)))) hbs hstop
  rw [e3, e4]
  dsimp only
  rcases hd : (escQ q R ++ q :: (ws2 ++ (']' :: suffix))).dropWhile isJsWs with _ | ⟨c5, r5⟩
  · rfl
  · rw [hd] at hno
    have hc5 : ¬c5 = ']' := by
      intro hc
      exact hno (by rw [hc]; rfl)
    have hm : (match c5 :: r5 with
      | ']' :: r5 => StepRes.seg (.key ⟨A ++ ['\\']⟩) r5
      | _ => StepRes.fail) = StepRes.fail := by
      cases c5' : c5 <;> simp_all [hc5]
    rw [hm]

/-! # Claim theorems -/

/-- Claim C1, counterexample: the claim says assigning v at a
well-formed path and then looking the path up yields v whenever the
assignment succeeds.  The exotic array length property refutes it: on
root with a two-element array at key a, assigning the string value 7 at
the path dollar dot a dot length succeeds — the length setter coerces
the digit string to the number 7 and resizes the array — but looking the
same path up afterwards returns the length as a number, not the assigned
string. -/
theorem C1_counterexample :
    setTinyJsonPath
        (JSValue.obj [("a", JSValue.arr [JSValue.num 1, JSValue.num 2] [])])
        "$.a.length" (JSValue.str "7") =
      some (true, JSValue.obj [("a", JSValue.arr
        [JSValue.num 1, JSValue.num 2, JSValue.undef, JSValue.undef,
         JSValue.undef, JSValue.undef, JSValue.undef] [])]) ∧
    getTinyJsonPath (JSValue.obj [("a", JSValue.arr
        [JSValue.num 1, JSValue.num 2, JSValue.undef, JSValue.undef,
         JSValue.undef, JSValue.undef, JSValue.undef] [])]) "$.a.length" =
      some (JSValue.num 7) ∧
    JSValue.num 7 ≠ JSValue.str "7" :=
  ⟨rfl, rfl, fun h => JSValue.noConfusion h⟩

/-- Claim C1 as amended: round trip — whenever the assignment reports
success and no key segment of the scanned path is an exotic property
key (the array length key, whose assignment coerces and resizes rather
than storing the value, or the prototype accessor key), looking up the
path on the mutated structure returns the assigned value.  (The JSValue
universe is cycle-free by construction, which is the JSON-safety
proviso.) -/
theorem C1_round_trip (root : JSValue) (path : String) (v root2 : JSValue)
    (hplain : ∀ segs t, tokenizeFrom path.data.tail = some (segs, t) →
      segs.all Seg.plainKey = true)
    (h : setTinyJsonPath root path v = some (true, root2)) :
    getTinyJsonPath root2 path = some v :=
  setTinyJsonPath_roundtrip root path v root2 hplain h

theorem C1_round_trip_witness :
    getTinyJsonPath (JSValue.obj [("a", JSValue.num 7)]) "$.a" =
      some (JSValue.num 7) :=
  C1_round_trip (JSValue.obj []) "$.a" (JSValue.num 7)
    (JSValue.obj [("a", JSValue.num 7)])
    (by
      intro segs t htok
      have h2 : some (([Seg.key "a"] : List Seg), ([] : List Char)) =
          some (segs, t) := htok
      simp only [Option.some.injEq, Prod.mk.injEq] at h2
      rw [← h2.1]
      decide)
    rfl

/-- Claim C2, counterexample: the claim says a scan that stops before the
path end on an unrecognized character makes setTinyJsonPath return false
with no mutation.  On the path consisting of the root marker, the valid
segment .a, and the trailing garbage character #, the source instead
ignores the garbage, assigns, and returns true: the tokenizing loop
breaks on the unrecognized character but the only check afterwards is
segs.length === 0. -/
theorem C2_counterexample :
    setTinyJsonPath (JSValue.obj []) "$.a#" (JSValue.num 1) =
      some (true, JSValue.obj [("a", JSValue.num 1)]) := rfl

/-- Claim C2 as amended: when the scan stops before the end of the path
on an unrecognized character (nonempty trailing remainder t), the call
fails with no mutation only when no segment was scanned before the break;
when at least one segment was scanned, the trailing characters are
ignored and assignment proceeds on the scanned prefix. -/
theorem C2_trailing_garbage (root v : JSValue) (rest : List Char)
    (segs : List Seg) (t : List Char)
    (htok : tokenizeFrom rest = some (segs, t)) (ht : t ≠ []) :
    setTinyJsonPath root ⟨'$' :: rest⟩ v =
      (if segs.isEmpty then some (false, root) else setWalk root v segs) := by
  show setTinyJsonPathData root v ('$' :: rest) = _
  simp only [setTinyJsonPathData, if_true]
  rw [htok]

theorem C2_trailing_garbage_witness :
    setTinyJsonPath (JSValue.obj []) ⟨'$' :: ['.', 'a', '#']⟩ (JSValue.num 1) =
      (if ([Seg.key "a"] : List Seg).isEmpty then some (false, JSValue.obj [])
       else setWalk (JSValue.obj []) (JSValue.num 1) [Seg.key "a"]) :=
  C2_trailing_garbage (JSValue.obj []) (JSValue.num 1) ['.', 'a', '#']
    [Seg.key "a"] ['#'] rfl (by simp)

/-- Claim C3: there exist a structure, path and value for which
setTinyJsonPath fails (returns false) on a later segment after an
earlier segment has already created an intermediate container, and that
container remains afterwards — exhibited on the empty-object root with
the path dollar dot a dot toString dot x: phase 2 creates an object at
key a and descends into it, then fails at toString, because the
prototype-inherited Object.prototype.toString function is neither
nullish nor typeof object; the call returns false with the root mutated
to hold the created container at a.  And only phase-1 scan failures
guarantee zero mutation: a scan failure makes the call return false
with the root unchanged. -/
theorem C3_partial_mutation :
    (setTinyJsonPath (JSValue.obj []) "$.a.toString.x" (JSValue.num 1) =
        some (false, JSValue.obj [("a", JSValue.obj [])]) ∧
      JSValue.obj [("a", JSValue.obj [])] ≠ JSValue.obj []) ∧
    (∀ (root v : JSValue) (rest : List Char), tokenizeFrom rest = none →
      setTinyJsonPath root ⟨'$' :: rest⟩ v = some (false, root)) := by
  refine ⟨⟨rfl, ?_⟩, ?_⟩
  · intro h
    injection h with h1
    exact List.noConfusion h1
  · intro root v rest htok
    show setTinyJsonPathData root v ('$' :: rest) = _
    simp only [setTinyJsonPathData, if_true]
    rw [htok]

theorem C3_partial_mutation_witness :
    setTinyJsonPath (JSValue.obj []) ⟨'$' :: ['[']⟩ (JSValue.num 1) =
      some (false, JSValue.obj []) :=
  C3_partial_mutation.2 (JSValue.obj []) (JSValue.num 1) ['['] rfl

/-- Claim C4, counterexample: the claim says no call ever signals failure
through an exception, for every root value including null.  But
setTinyJsonPath(null, "$.a.b", 1) reads null["a"] in phase 2 without a
null guard, which throws a TypeError (modelled as none). -/
theorem C4_counterexample :
    setTinyJsonPath JSValue.null "$.a.b" (JSValue.num 1) = none := rfl

/-- Claim C4 as amended: getTinyJsonPath always completes with its value
sentinel for every root and path.  setTinyJsonPath can throw — a
null/undefined root under a key-leading multi-segment path throws a
TypeError in phase 2 (the setter, unlike the getter, does not guard the
property read), and on container roots an array length assignment or a
final-index growth to 2^32 - 1 or beyond throws a RangeError — but it
completes with its boolean sentinel whenever the path does not reach
phase 2: no root marker, or a phase-1 scan failure; and whenever the
root is a container and every scanned segment is benign (its key is not
the exotic length key and its index is below 2^32 - 1). -/
theorem C4_sentinel_returns (root v : JSValue) :
    (∀ path, ∃ r, getTinyJsonPath root path = some r) ∧
    (∀ path, path.data.head? ≠ some '$' →
      setTinyJsonPath root path v = some (false, root)) ∧
    (∀ rest : List Char, tokenizeFrom rest = none →
      setTinyJsonPath root ⟨'$' :: rest⟩ v = some (false, root)) ∧
    (∀ (rest : List Char) (segs : List Seg) (t : List Char),
      isObjLike root = true → tokenizeFrom rest = some (segs, t) →
      segs.all Seg.benign = true →
      ∃ r, setTinyJsonPath root ⟨'$' :: rest⟩ v = some r) := by
  refine ⟨fun path => getTinyJsonPath_total root path, ?_, ?_, ?_⟩
  · intro path hhead
    show setTinyJsonPathData root v path.data = _
    rcases hd : path.data with _ | ⟨c, rest⟩
    · rfl
    · rw [hd] at hhead
      have hc : ¬ c = '$' := by
        intro hc
        exact hhead (by rw [hc]; rfl)
      simp only [setTinyJsonPathData, if_neg hc]
  · intro rest htok
    show setTinyJsonPathData root v ('$' :: rest) = _
    simp only [setTinyJsonPathData, if_true]
    rw [htok]
  · intro rest segs t hobj htok hben
    show ∃ r, setTinyJsonPathData root v ('$' :: rest) = some r
    simp only [setTinyJsonPathData, if_true]
    rw [htok]
    by_cases hs : segs.isEmpty
    · exact ⟨(false, root), by simp [hs]⟩
    · obtain ⟨r, hr⟩ := setWalk_total segs root v hobj hben
      exact ⟨r, by simp [hs, hr]⟩

theorem C4_sentinel_returns_witness :
    ∃ r, setTinyJsonPath (JSValue.obj []) ⟨'$' :: ['.', 'a']⟩ (JSValue.num 1) =
      some r :=
  (C4_sentinel_returns (JSValue.obj []) (JSValue.num 1)).2.2.2 ['.', 'a']
    [Seg.key "a"] [] rfl rfl (by decide)

/-- Claim C7, counterexample: the claim quantifies over every final
index at or beyond the current length, but at index 2^32 - 1 (the
maximum array length) and beyond, the growth step cur.length = idx + 1
of the source exceeds the maximum array length and throws a RangeError
(modelled as none): the call throws instead of growing and
succeeding. -/
theorem C7_counterexample :
    setTinyJsonPath (JSValue.arr [] []) "$[4294967295]" (JSValue.num 1) =
      none := rfl

/-- Claim C7 as amended: an assignment whose final segment is an index n
at least the length of the sequence-like target, with n below the
maximum array length 2^32 - 1, grows the sequence to length n + 1, sets
the element at n to the value, preserves every existing element at a
lower index, and leaves the slots between the old length and n absent
(undefined), neither zero-filled nor value-filled. -/
theorem C7_array_growth (e : List JSValue) (p : List (String × JSValue))
    (n : Nat) (v : JSValue) (h : e.length ≤ n) (hcap : n < maxArrayLength) :
    setWalk (JSValue.arr e p) v [Seg.index n] =
      some (true, JSValue.arr (arrSet e n v) p) ∧
    (arrSet e n v).length = n + 1 ∧
    (arrSet e n v).getD n JSValue.undef = v ∧
    (∀ j, j < e.length →
      (arrSet e n v).getD j JSValue.undef = e.getD j JSValue.undef) ∧
    (∀ j, e.length ≤ j → j < n →
      (arrSet e n v).getD j JSValue.undef = JSValue.undef) := by
  have hc : ¬(e.length ≤ n ∧ maxArrayLength ≤ n) := by
    simp only [maxArrayLength] at hcap ⊢
    omega
  refine ⟨?_, ?_, arrSet_getD e n v, ?_, ?_⟩
  · simp only [setWalk, if_neg hc]
  · rw [arrSet_length]
    omega
  · intro j hj
    exact arrSet_getD_lower e n v j hj (by omega)
  · intro j hj1 hj2
    exact arrSet_getD_between e n v j hj1 hj2

theorem C7_array_growth_witness :
    setWalk (JSValue.arr [JSValue.str "x"] []) (JSValue.num 9) [Seg.index 3] =
      some (true, JSValue.arr
        [JSValue.str "x", JSValue.undef, JSValue.undef, JSValue.num 9] []) :=
  (C7_array_growth [JSValue.str "x"] [] 3 (JSValue.num 9) (by simp)
    (by decide)).1

/-- Claim C8, counterexample: the claim says every path with a
quoted-key segment whose closing quote is preceded by a backslash fails.
On the raw path dollar bracket dquote a b backslash dquote rbracket, the
scanner terminates the key at the (escaped) quote, keeps the backslash
as a literal key character, finds the closing bracket, and the call
succeeds: assignment returns true and stores the garbled key, and lookup
with the same path reads it back. -/
theorem C8_counterexample :
    setTinyJsonPath (JSValue.obj []) "$[\"ab\\\"]" (JSValue.num 1) =
      some (true, JSValue.obj [("ab\\", JSValue.num 1)]) ∧
    getTinyJsonPath (JSValue.obj [("ab\\", JSValue.num 7)]) "$[\"ab\\\"]" =
      some (JSValue.num 7) :=
  ⟨rfl, rfl⟩

/-- Claim C8 as amended: a quoted-key segment written with a
backslash-escaped quote character fails the whole call — lookup returns
absent, assignment returns false with no mutation — provided the first
escaped quote is not followed, after whitespace, by a closing bracket;
the scanner treats the backslash literally, terminates the key at the
first occurrence of the quote character, and then fails to find the
required closing bracket.  (When a closing bracket does immediately
follow, the scanner instead accepts a garbled key ending in the
backslash and the call proceeds, per the counterexample.) -/
theorem C8_escaped_quote_fails (root v : JSValue) (pre : List SegR)
    (ws0 ws1 ws2 : List Char) (q : Char) (A R suffix : List Char)
    (hq : isQuote q = true) (hA : A.all (fun a => !(a == q)) = true)
    (hws0 : ws0.all isJsWs = true) (hws1 : ws1.all isJsWs = true)
    (hpre : rendersOkB pre (ws0 ++ '[' :: (ws1 ++ q ::
      (escQ q (A ++ q :: R) ++ q :: (ws2 ++ (']' :: suffix))))) = true)
    (hno : ((escQ q R ++ q :: (ws2 ++ (']' :: suffix))).dropWhile isJsWs).head? ≠
      some ']') :
    getTinyJsonPath root ⟨'$' :: (renderSegs pre ++ (ws0 ++ '[' :: (ws1 ++ q ::
        (escQ q (A ++ q :: R) ++ q :: (ws2 ++ (']' :: suffix))))))⟩ =
      some JSValue.undef ∧
    setTinyJsonPath root ⟨'$' :: (renderSegs pre ++ (ws0 ++ '[' :: (ws1 ++ q ::
        (escQ q (A ++ q :: R) ++ q :: (ws2 ++ (']' :: suffix))))))⟩ v =
      some (false, root) := by
  set bad := ws0 ++ '[' :: (ws1 ++ q ::
    (escQ q (A ++ q :: R) ++ q :: (ws2 ++ (']' :: suffix)))) with hbad
  have hfail : scanStep bad = .fail :=
    scanStep_escaped_fail ws0 ws1 ws2 q A R suffix hq hA hws0 hws1 hno
  have htokbad : tokenizeFrom bad = none := by
    rw [tokenizeFrom_unfold, hfail]
  have htok : tokenizeFrom (renderSegs pre ++ bad) = none := by
    rw [tokenizeFrom_renderSegs pre bad hpre, htokbad]
    rfl
  constructor
  · show getTinyJsonPathData root ('$' :: (renderSegs pre ++ bad)) = _
    simp only [getTinyJsonPathData, if_true]
    rw [getLoop_decomp, htok]
  · show setTinyJsonPathData root v ('$' :: (renderSegs pre ++ bad)) = _
    simp only [setTinyJsonPathData, if_true]
    rw [htok]

theorem C8_escaped_quote_fails_witness :
    getTinyJsonPath (JSValue.obj []) ⟨'$' :: (renderSegs [] ++ ([] ++ '[' :: ([] ++ dqChar ::
        (escQ dqChar (['o'] ++ dqChar :: ['c']) ++ dqChar :: ([] ++ (']' :: []))))))⟩ =
      some JSValue.undef ∧
    setTinyJsonPath (JSValue.obj []) ⟨'$' :: (renderSegs [] ++ ([] ++ '[' :: ([] ++ dqChar ::
        (escQ dqChar (['o'] ++ dqChar :: ['c']) ++ dqChar :: ([] ++ (']' :: []))))))⟩
      (JSValue.num 1) = some (false, JSValue.obj []) :=
  C8_escaped_quote_fails (JSValue.obj []) (JSValue.num 1) [] [] [] []
    dqChar ['o'] ['c'] [] (by decide) (by decide) rfl rfl rfl (by decide)

/-- Claim C9: inserting whitespace at any position permitted by the
grammar — before a segment, after the dot, inside brackets around the
key or index, before the closing bracket, and after the last segment —
never changes the result: any two well-formed renderings of the same
segment sequence give the same lookup result and the same assignment
outcome and effect. -/
theorem C9_whitespace_invariance (root v : JSValue) (rs1 rs2 : List SegR)
    (ws1 ws2 : List Char)
    (hok1 : rendersOkB rs1 ws1 = true) (hok2 : rendersOkB rs2 ws2 = true)
    (hws1 : ws1.all isJsWs = true) (hws2 : ws2.all isJsWs = true)
    (hsegs : rs1.map SegR.seg = rs2.map SegR.seg) :
    getTinyJsonPath root (pathOf rs1 ws1) = getTinyJsonPath root (pathOf rs2 ws2) ∧
    setTinyJsonPath root (pathOf rs1 ws1) v =
      setTinyJsonPath root (pathOf rs2 ws2) v := by
  constructor
  · rw [getTinyJsonPath_pathOf root rs1 ws1 hok1 hws1,
      getTinyJsonPath_pathOf root rs2 ws2 hok2 hws2, hsegs]
  · rw [setTinyJsonPath_pathOf root v rs1 ws1 hok1 hws1,
      setTinyJsonPath_pathOf root v rs2 ws2 hok2 hws2, hsegs]

theorem C9_whitespace_invariance_witness :
    getTinyJsonPath (JSValue.obj [("a", JSValue.num 3)])
        (pathOf [SegR.dot [] [] ['a']] []) =
      getTinyJsonPath (JSValue.obj [("a", JSValue.num 3)])
        (pathOf [SegR.dot [' '] [' '] ['a']] [' ']) ∧
    setTinyJsonPath (JSValue.obj [("a", JSValue.num 3)])
        (pathOf [SegR.dot [] [] ['a']] []) (JSValue.num 1) =
      setTinyJsonPath (JSValue.obj [("a", JSValue.num 3)])
        (pathOf [SegR.dot [' '] [' '] ['a']] [' ']) (JSValue.num 1) :=
  C9_whitespace_invariance (JSValue.obj [("a", JSValue.num 3)]) (JSValue.num 1)
    [SegR.dot [] [] ['a']] [SegR.dot [' '] [' '] ['a']] [] [' ']
    (by decide) (by decide) (by decide) (by decide) rfl

/-- Claim C10: getTinyJsonPath is total for every root value — including
null, undefined and primitive roots — and every path string: every key
descent is guarded by a nullish check and every index descent by an
array check, so the call always returns a value or the absent marker and
never throws (never returns the exception outcome none). -/
theorem C10_lookup_total (root : JSValue) (path : String) :
    ∃ r, getTinyJsonPath root path = some r :=
  getTinyJsonPath_total root path
